import Mathlib

/-!
# The prefix store of `script.js`

A shallow embedding of the trie behind `AutocompleteChatbotUI` (`insert`, `collectWords`,
`getSuggestions`, `search`, `processInput`, `initializeDefaultWords`) and the properties of its
specification.

Conventions of the embedding.

* A JavaScript string is a Lean `String`; `for (const ch of s)` walks `s.data`.
* A JavaScript `Map` is the list of its entries in insertion order (`JSMap.get`, `JSMap.has`,
  `JSMap.set`).
* Numbers are integers (`Int`): frequencies and counters stay far inside the range in which
  JavaScript numbers are exact.
* The object is mutated in place in the source; here every method takes the store and returns the
  new store. The DOM calls of `processInput` (`appendConsole`, `renderSuggestions`,
  `updateStatsPanel`) do not touch the store and are left out.
* The two functions of the JavaScript host that depend on Unicode tables,
  `String.prototype.toLowerCase` and `String.prototype.localeCompare`, are a parameter, `Host`:
  the theorems hold for every host, under the hypotheses they state. `sampleHost` is one host, on
  which the concrete calls of the examples are evaluated.
* `Array.prototype.sort` is a stable insertion sort, `Array.prototype.slice` and
  `String.prototype.trim` are as ECMAScript specifies them.
-/

/-- A node of the prefix tree (`class TrieNode`): the `children` map, the `isEndOfWord` flag,
the `frequency` and the stored `word`. -/
inductive TrieNode where
  | mk (children : List (Char × TrieNode)) (isEndOfWord : Bool) (frequency : Int)
      (word : String) : TrieNode

namespace TrieNode

/-- Field `children`. -/
def children : TrieNode → List (Char × TrieNode)
  | mk cs _ _ _ => cs

/-- Field `isEndOfWord`. -/
def isEndOfWord : TrieNode → Bool
  | mk _ e _ _ => e

/-- Field `frequency`. -/
def frequency : TrieNode → Int
  | mk _ _ f _ => f

/-- Field `word`. -/
def word : TrieNode → String
  | mk _ _ _ w => w

/-- The node made by `new TrieNode()`: no children, not terminal, frequency 0, word `""`. -/
def new : TrieNode := mk [] false 0 ""

end TrieNode

namespace JSMap

/-- Models `Map.prototype.get`: the value of the first entry with the key, if any. -/
def get {β : Type} : List (Char × β) → Char → Option β
  | [], _ => none
  | (k, v) :: rest, ch => if k = ch then some v else get rest ch

/-- Models `Map.prototype.has`. -/
def has {β : Type} (m : List (Char × β)) (ch : Char) : Bool :=
  (get m ch).isSome

/-- Models `Map.prototype.set`: replaces the value of an existing key in place, appends a new key at
the end. -/
def set {β : Type} : List (Char × β) → Char → β → List (Char × β)
  | [], ch, v => [(ch, v)]
  | (k, v0) :: rest, ch, v => if k = ch then (k, v) :: rest else (k, v0) :: set rest ch v

end JSMap

/-- The functions of the JavaScript host that the store calls and that no code of the repository
defines: `String.prototype.toLowerCase` and `String.prototype.localeCompare` (negative, zero or
positive as the first word sorts before, with or after the second). -/
structure Host where
  toLowerCase : String → String
  localeCompare : String → String → Int

/-- Models `toLowerCase(str)`, the method of the class: the lowercase form the host gives. -/
def toLowerCase (host : Host) (str : String) : String :=
  host.toLowerCase str

/-- The code points `String.prototype.trim` strips: ECMAScript WhiteSpace and LineTerminator. -/
def isWhiteSpace (c : Char) : Bool :=
  c.toNat = 0x09 || c.toNat = 0x0A || c.toNat = 0x0B || c.toNat = 0x0C || c.toNat = 0x0D ||
  c.toNat = 0x20 || c.toNat = 0xA0 || c.toNat = 0x1680 ||
  (0x2000 ≤ c.toNat && c.toNat ≤ 0x200A) ||
  c.toNat = 0x2028 || c.toNat = 0x2029 || c.toNat = 0x202F || c.toNat = 0x205F ||
  c.toNat = 0x3000 || c.toNat = 0xFEFF

/-- Models `String.prototype.trim`. -/
def trim (str : String) : String :=
  ⟨((str.data.dropWhile isWhiteSpace).reverse.dropWhile isWhiteSpace).reverse⟩

/-- Models `Array.prototype.sort(compareFn)`: a stable sort, `a` stays before `b` when
`compareFn a b ≤ 0`. -/
def arraySort {α : Type} (compareFn : α → α → Int) (xs : List α) : List α :=
  xs.insertionSort (fun a b => compareFn a b ≤ 0)

/-- Models `Array.prototype.slice(0, stop)`: a negative `stop` counts from the end of the array. -/
def arraySlice {α : Type} (xs : List α) (stop : Int) : List α :=
  if stop < 0 then xs.take (xs.length - stop.natAbs) else xs.take stop.toNat

/-- One entry of the result of `getSuggestions`: `{ word: w, frequency: f }`. -/
structure Suggestion where
  word : String
  frequency : Int
  deriving DecidableEq, Repr

/-- The loop shared by `getSuggestions` and `search`: follow the characters from a node, giving
up (`none`) at the first character with no child. -/
def descend : TrieNode → List Char → Option TrieNode
  | current, [] => some current
  | current, ch :: rest =>
    if JSMap.has current.children ch then
      match JSMap.get current.children ch with
      | some child => descend child rest
      | none => none
    else none

/-- The loop and the final branch of `insert`, from the node `current`: the characters left to
walk, creating the missing children; the result is the updated node and whether the word was
new (the `else` branch, where `totalWords` grows). -/
def insertNode (lowerWord : String) (frequency : Int) : List Char → TrieNode → TrieNode × Bool
  | [], current =>
    if current.isEndOfWord then
      (TrieNode.mk current.children current.isEndOfWord (current.frequency + frequency)
        current.word, false)
    else
      (TrieNode.mk current.children true frequency lowerWord, true)
  | ch :: rest, current =>
    let children :=
      if JSMap.has current.children ch then current.children
      else JSMap.set current.children ch TrieNode.new
    let r := insertNode lowerWord frequency rest ((JSMap.get children ch).getD TrieNode.new)
    (TrieNode.mk (JSMap.set children ch r.1) current.isEndOfWord current.frequency current.word,
      r.2)

mutual
/-- Models `collectWords(node, words)`: pushes `[node.word, node.frequency]` when the node is
terminal, then visits the children in the order of the map; returns the extended `words`. -/
def collectWords : TrieNode → List (String × Int) → List (String × Int)
  | TrieNode.mk cs e f w, words => collectChildren cs (if e then words ++ [(w, f)] else words)
/-- The `for (const [, child] of node.children)` loop of `collectWords`. -/
def collectChildren : List (Char × TrieNode) → List (String × Int) → List (String × Int)
  | [], words => words
  | (_, child) :: rest, words => collectChildren rest (collectWords child words)
end

/-- The state of `class AutocompleteChatbotUI` that the store methods use. -/
structure AutocompleteChatbotUI where
  root : TrieNode
  totalWords : Nat
  totalInsertions : Int

namespace AutocompleteChatbotUI

/-- The fields as the constructor sets them before `initializeDefaultWords` runs. -/
def empty : AutocompleteChatbotUI :=
  { root := TrieNode.new, totalWords := 0, totalInsertions := 0 }

/-- Models `insert(word, frequency = 1)`. -/
def insert (host : Host) (self : AutocompleteChatbotUI) (word : String) (frequency : Int := 1) :
    AutocompleteChatbotUI :=
  let lowerWord := toLowerCase host word
  let r := insertNode lowerWord frequency lowerWord.data self.root
  { root := r.1
    totalWords := if r.2 then self.totalWords + 1 else self.totalWords
    totalInsertions := self.totalInsertions + frequency }

/-- The comparison function given to `words.sort` in `getSuggestions`. -/
def compareWords (host : Host) (a b : String × Int) : Int :=
  if a.2 = b.2 then host.localeCompare a.1 b.1 else b.2 - a.2

/-- Models `getSuggestions(prefix, maxSuggestions = 5)`. -/
def getSuggestions (host : Host) (self : AutocompleteChatbotUI) (pfx : String)
    (maxSuggestions : Int := 5) :
    List Suggestion :=
  let lowerPrefix := toLowerCase host pfx
  match descend self.root lowerPrefix.data with
  | none => []
  | some current =>
    let words := collectWords current []
    let words := arraySort (compareWords host) words
    (arraySlice words maxSuggestions).map (fun p => { word := p.1, frequency := p.2 })

/-- Models `search(word)`. -/
def search (host : Host) (self : AutocompleteChatbotUI) (word : String) : Bool :=
  let lowerWord := toLowerCase host word
  match descend self.root lowerWord.data with
  | none => false
  | some current => current.isEndOfWord

/-- The seed vocabulary `defaultWords` of `initializeDefaultWords`. -/
def defaultWords : List (String × Int) :=
  [("hello", 10), ("help", 8), ("how", 7), ("house", 5), ("happy", 6),
   ("computer", 9), ("code", 12), ("coding", 8), ("cool", 4), ("cat", 3),
   ("chatbot", 15), ("chat", 10), ("change", 6), ("challenge", 7),
   ("programming", 11), ("program", 9), ("project", 8), ("practice", 5),
   ("python", 7), ("java", 6), ("javascript", 8), ("algorithm", 9),
   ("data", 10), ("structure", 8), ("database", 6), ("design", 7),
   ("development", 9), ("developer", 8), ("debug", 5), ("deploy", 4),
   ("machine", 6), ("learning", 8), ("artificial", 5), ("intelligence", 7),
   ("network", 6), ("security", 8), ("software", 10), ("system", 9),
   ("technology", 7), ("technical", 6), ("tutorial", 8), ("training", 5),
   ("dbms", 4)]

/-- Models `initializeDefaultWords()`: inserts every seed pair in order. -/
def initializeDefaultWords (host : Host) (self : AutocompleteChatbotUI) :
    AutocompleteChatbotUI :=
  defaultWords.foldl (fun s p => s.insert host p.1 p.2) self

/-- Models `processInput(input)`, as far as the store is concerned: blank input and the four
commands leave it alone, anything else is looked up and then inserted with frequency 1 in either
branch. -/
def processInput (host : Host) (self : AutocompleteChatbotUI) (input : String) :
    AutocompleteChatbotUI :=
  if trim input = "" then self
  else
    let lowerInput := toLowerCase host (trim input)
    if lowerInput = "quit" ∨ lowerInput = "exit" then self
    else if lowerInput = "stats" then self
    else if lowerInput = "help" then self
    else
      let _suggestions := self.getSuggestions host input
      if self.search host input then self.insert host input 1
      else self.insert host input 1

/-- The store after any sequence of `insert(word, frequency)` calls on the empty store. -/
def build (host : Host) (ops : List (String × Int)) : AutocompleteChatbotUI :=
  ops.foldl (fun s p => s.insert host p.1 p.2) empty

end AutocompleteChatbotUI

/-! ## Vocabulary of the specification -/

/-- The word record held at a path: the `(word, frequency)` of the terminal node that the
characters lead to, `none` when the walk fails or ends on a node that is not terminal. -/
def entryAt (t : TrieNode) (path : List Char) : Option (String × Int) :=
  match descend t path with
  | some m => if m.isEndOfWord then some (m.word, m.frequency) else none
  | none => none

/-- The lowercase forms of the words of a sequence of `insert(word, frequency)` calls. -/
def insertedWords (host : Host) (ops : List (String × Int)) : List String :=
  ops.map (fun p => toLowerCase host p.1)

/-- The sum of the frequencies of all the calls that inserted the lowercase word `w`. -/
def totalFrequency (host : Host) (ops : List (String × Int)) (w : String) : Int :=
  ((ops.filter (fun p => toLowerCase host p.1 = w)).map Prod.snd).sum

/-- Every node that a walk can reach has a map with distinct keys, as every JavaScript `Map`
has. -/
def KeysOK (t : TrieNode) : Prop :=
  ∀ p m, descend t p = some m → (m.children.map Prod.fst).Nodup

/-- Below a node that sits at the path `pre`, every record holds the word its own path spells. -/
def WordsAt (pre : List Char) (t : TrieNode) : Prop :=
  ∀ p e, entryAt t p = some e → e.1.data = pre ++ p

mutual
/-- The number of nodes of a subtree whose `isEndOfWord` flag is true. -/
def countTerminal : TrieNode → Nat
  | TrieNode.mk cs e _ _ => (if e then 1 else 0) + countTerminalChildren cs
/-- The number of terminal nodes below the entries of a `children` map. -/
def countTerminalChildren : List (Char × TrieNode) → Nat
  | [] => 0
  | (_, child) :: rest => countTerminal child + countTerminalChildren rest
end

/-- The `words` array of `getSuggestions` before it is sorted: what `collectWords` gathers
below the node of the lowercase prefix, nothing when the walk fails. -/
def matchesOf (host : Host) (s : AutocompleteChatbotUI) (pfx : String) :
    List (String × Int) :=
  match descend s.root (toLowerCase host pfx).data with
  | none => []
  | some current => collectWords current []

/-- The object `{ word: w, frequency: f }` that `getSuggestions` makes of a pair of `words`. -/
def toSuggestion (p : String × Int) : Suggestion :=
  { word := p.1, frequency := p.2 }

/-- The host's `localeCompare` is a consistent comparison function, as ECMAScript requires of
it: of two words one is not after the other, and "not after" is transitive. -/
def Host.Consistent (host : Host) : Prop :=
  (∀ a b, host.localeCompare a b ≤ 0 ∨ host.localeCompare b a ≤ 0) ∧
  (∀ a b c, host.localeCompare a b ≤ 0 → host.localeCompare b c ≤ 0 →
    host.localeCompare a c ≤ 0)

/-- The ranking that `getSuggestions` produces: `a` comes before `b` when its frequency is
higher, or the frequencies are equal and the host's `localeCompare` does not put the word of `a`
after the word of `b`. -/
def rankedBefore (host : Host) (a b : Suggestion) : Prop :=
  b.frequency < a.frequency ∨
    (a.frequency = b.frequency ∧ host.localeCompare a.word b.word ≤ 0)

/-- The ranking with ties broken by code points: `a` comes before `b` when its frequency is
higher, or the frequencies are equal and its word is strictly smaller in the lexicographic order
of the code points. -/
def lexRankedBefore (a b : Suggestion) : Prop :=
  b.frequency < a.frequency ∨ (a.frequency = b.frequency ∧ a.word < b.word)

/-- The frequency the store holds for a word: that of the terminal node of its lowercase form,
`none` when the word is not stored. -/
def frequencyOf (host : Host) (s : AutocompleteChatbotUI) (word : String) : Option Int :=
  (entryAt s.root (toLowerCase host word).data).map Prod.snd

/-- The distinct lowercase words of a sequence of insertions that start with the lowercase form
of `pfx`. -/
def storedWithPrefix (host : Host) (ops : List (String × Int)) (pfx : String) :
    List String :=
  (insertedWords host ops).dedup.filter (fun w => decide ((toLowerCase host pfx).data <+: w.data))

/-! ## A host for the examples -/

/-- The letters that have a case, as far as the sample host knows them: `A`–`Z`, `a`–`z` and the
Greek letters U+0391–U+03C9. -/
def isCasedLetter (c : Char) : Bool :=
  c.isAlpha || (0x0391 ≤ c.toNat && c.toNat ≤ 0x03C9)

/-- Whether a sequence of characters starts with a letter that has a case. -/
def startsWithLetter : List Char → Bool
  | [] => false
  | d :: _ => isCasedLetter d

/-- The lowercase form of the sample host, character by character: `A`–`Z` and the Greek
capitals U+0391–U+03A9 go to their small letters, and the capital sigma U+03A3 goes to the final
sigma U+03C2 when it follows a letter and no letter follows it, to U+03C3 otherwise. The flag
says that the previous character was a letter. -/
def lowerChars : Bool → List Char → List Char
  | _, [] => []
  | afterLetter, c :: rest =>
    (if c.toNat = 0x03A3 then
      (if afterLetter && !startsWithLetter rest then Char.ofNat 0x03C2 else Char.ofNat 0x03C3)
    else if 0x0391 ≤ c.toNat ∧ c.toNat ≤ 0x03A9 then Char.ofNat (c.toNat + 32)
    else c.toLower) :: lowerChars (isCasedLetter c) rest

/-- The sort key of a character in the sample host: punctuation and symbols come before the
digits, the digits before the letters, and the code point decides inside a class. -/
def collationKey (c : Char) : Nat :=
  (if c.isDigit then 1 else if c.isAlpha || 128 ≤ c.toNat then 2 else 0) * 0x110000 + c.toNat

/-- Three-way comparison of two sequences of sort keys, the shorter first on a tie. -/
def compareKeys : List Nat → List Nat → Int
  | [], [] => 0
  | [], _ :: _ => -1
  | _ :: _, [] => 1
  | a :: as, b :: bs =>
    if a < b then -1
    else if b < a then 1
    else compareKeys as bs

/-- One host, for the examples: its `toLowerCase` knows `A`–`Z` and the Greek capitals with the
final sigma, its `localeCompare` puts punctuation before digits before letters. On the words of
the examples it answers as `String.prototype.toLowerCase` and `String.prototype.localeCompare`
do. -/
def sampleHost : Host :=
  { toLowerCase := fun str => String.mk (lowerChars false str.data)
    localeCompare := fun a b =>
      compareKeys (a.data.map collationKey) (b.data.map collationKey) }

open AutocompleteChatbotUI

variable {host : Host}

/-! ## The fields of a node -/

namespace TrieNode

@[simp] theorem children_mk (cs : List (Char × TrieNode)) (e : Bool) (f : Int) (w : String) :
    (mk cs e f w).children = cs := rfl

@[simp] theorem isEndOfWord_mk (cs : List (Char × TrieNode)) (e : Bool) (f : Int)
    (w : String) : (mk cs e f w).isEndOfWord = e := rfl

@[simp] theorem frequency_mk (cs : List (Char × TrieNode)) (e : Bool) (f : Int) (w : String) :
    (mk cs e f w).frequency = f := rfl

@[simp] theorem word_mk (cs : List (Char × TrieNode)) (e : Bool) (f : Int) (w : String) :
    (mk cs e f w).word = w := rfl

@[simp] theorem children_new : new.children = [] := rfl

@[simp] theorem isEndOfWord_new : new.isEndOfWord = false := rfl

end TrieNode

/-! ## The map operations -/

namespace JSMap

variable {β : Type}

theorem get_set_same (m : List (Char × β)) (ch : Char) (v : β) :
    get (set m ch v) ch = some v := by
  induction m with
  | nil => simp [set, get]
  | cons p rest ih =>
    obtain ⟨k, v0⟩ := p
    by_cases h : k = ch
    · simp [set, get, h]
    · simp [set, get, h, ih]

theorem get_set_other (m : List (Char × β)) {ch k : Char} (v : β) (h : k ≠ ch) :
    get (set m ch v) k = get m k := by
  induction m with
  | nil => simp [set, get, Ne.symm h]
  | cons p rest ih =>
    obtain ⟨k', v0⟩ := p
    by_cases h' : k' = ch
    · subst h'
      simp [set, get, Ne.symm h]
    · simp [set, get, h', ih]

theorem set_set (m : List (Char × β)) (ch : Char) (a b : β) :
    set (set m ch a) ch b = set m ch b := by
  induction m with
  | nil => simp [set]
  | cons p rest ih =>
    obtain ⟨k, v0⟩ := p
    by_cases h : k = ch
    · simp [set, h]
    · simp [set, h, ih]

theorem mem_of_get {m : List (Char × β)} {ch : Char} {v : β} (h : get m ch = some v) :
    (ch, v) ∈ m := by
  induction m with
  | nil => simp [get] at h
  | cons p rest ih =>
    obtain ⟨k, v0⟩ := p
    by_cases hk : k = ch
    · subst hk
      simp [get] at h
      simp [h]
    · simp [get, hk] at h
      exact List.mem_cons_of_mem _ (ih h)

theorem get_of_mem {m : List (Char × β)} (hnd : (m.map Prod.fst).Nodup) {ch : Char} {v : β}
    (h : (ch, v) ∈ m) : get m ch = some v := by
  induction m with
  | nil => simp at h
  | cons p rest ih =>
    obtain ⟨k, v0⟩ := p
    simp only [List.map_cons, List.nodup_cons] at hnd
    rcases List.mem_cons.1 h with heq | hin
    · cases heq
      simp [get]
    · have hk : k ≠ ch := by
        rintro rfl
        exact hnd.1 (List.mem_map_of_mem Prod.fst hin)
      simp [get, hk, ih hnd.2 hin]

theorem has_iff_mem_keys (m : List (Char × β)) (ch : Char) :
    has m ch = true ↔ ch ∈ m.map Prod.fst := by
  induction m with
  | nil => simp [has, get]
  | cons p rest ih =>
    obtain ⟨k, v0⟩ := p
    by_cases hk : k = ch
    · simp [has, get, hk]
    · have ih' : (get rest ch).isSome = true ↔ ch ∈ rest.map Prod.fst := ih
      simp only [has, get, hk, if_false, List.map_cons, List.mem_cons, ih']
      constructor
      · intro h; exact Or.inr h
      · rintro (h | h)
        · exact absurd h.symm hk
        · exact h

theorem keys_set (m : List (Char × β)) (ch : Char) (v : β) :
    (set m ch v).map Prod.fst =
      if has m ch then m.map Prod.fst else m.map Prod.fst ++ [ch] := by
  induction m with
  | nil => simp [set, has, get]
  | cons p rest ih =>
    obtain ⟨k, v0⟩ := p
    by_cases hk : k = ch
    · simp [set, has, get, hk]
    · have : has ((k, v0) :: rest) ch = has rest ch := by simp [has, get, hk]
      rw [this]
      simp only [set, hk, if_false, List.map_cons, ih]
      split <;> simp

theorem nodup_keys_set {m : List (Char × β)} (hnd : (m.map Prod.fst).Nodup) (ch : Char)
    (v : β) : ((set m ch v).map Prod.fst).Nodup := by
  rw [keys_set]
  split
  · exact hnd
  · rename_i hh
    have hnot : ch ∉ m.map Prod.fst := fun hin => hh ((has_iff_mem_keys m ch).2 hin)
    rw [List.nodup_append]
    refine ⟨hnd, List.nodup_singleton ch, ?_⟩
    intro a ha hb
    simp only [List.mem_singleton] at hb
    subst hb
    exact hnot ha

end JSMap

/-! ## Walking and extending the tree -/

theorem descend_nil (cur : TrieNode) : descend cur [] = some cur := by
  simp [descend]

theorem descend_cons (cur : TrieNode) (ch : Char) (rest : List Char) :
    descend cur (ch :: rest) =
      (JSMap.get cur.children ch).bind (fun child => descend child rest) := by
  rw [descend]
  cases h : JSMap.get cur.children ch <;> simp [JSMap.has, h]

theorem descend_new_cons (ch : Char) (rest : List Char) :
    descend TrieNode.new (ch :: rest) = none := by
  simp [descend_cons, JSMap.get]

theorem descend_append (cur : TrieNode) (p q : List Char) :
    descend cur (p ++ q) = (descend cur p).bind (fun n => descend n q) := by
  induction p generalizing cur with
  | nil => simp [descend_nil]
  | cons ch rest ih =>
    simp only [List.cons_append, descend_cons]
    cases JSMap.get cur.children ch with
    | none => simp
    | some child => simp [ih]

theorem insertNode_nil (lw : String) (f : Int) (cur : TrieNode) :
    insertNode lw f [] cur =
      if cur.isEndOfWord then
        (TrieNode.mk cur.children cur.isEndOfWord (cur.frequency + f) cur.word, false)
      else (TrieNode.mk cur.children true f lw, true) := by
  rw [insertNode]

theorem insertNode_cons (lw : String) (f : Int) (ch : Char) (rest : List Char)
    (cur : TrieNode) :
    insertNode lw f (ch :: rest) cur =
      (TrieNode.mk
        (JSMap.set cur.children ch
          (insertNode lw f rest ((JSMap.get cur.children ch).getD TrieNode.new)).1)
        cur.isEndOfWord cur.frequency cur.word,
       (insertNode lw f rest ((JSMap.get cur.children ch).getD TrieNode.new)).2) := by
  rw [insertNode]
  cases h : JSMap.get cur.children ch with
  | none =>
    simp [JSMap.has, h, JSMap.get_set_same, JSMap.set_set]
  | some child =>
    simp [JSMap.has, h]

theorem descend_new_getD (rest : List Char) :
    (descend TrieNode.new rest).getD TrieNode.new = TrieNode.new := by
  cases rest with
  | nil => simp [descend_nil]
  | cons ch rest => simp [descend_new_cons]

/-- Walking along the inserted word after `insert` reaches the node that the rest of the
insertion produced from the node that was (or was not yet) there. -/
theorem descend_insertNode_along (lw : String) (f : Int) (p q : List Char) (t : TrieNode) :
    descend (insertNode lw f (p ++ q) t).1 p =
      some (insertNode lw f q ((descend t p).getD TrieNode.new)).1 := by
  induction p generalizing t with
  | nil => simp [descend_nil]
  | cons ch rest ih =>
    rw [List.cons_append, insertNode_cons, descend_cons]
    simp only [TrieNode.children_mk, JSMap.get_set_same, Option.some_bind]
    rw [ih, descend_cons]
    cases h : JSMap.get t.children ch with
    | none => simp [descend_new_getD]
    | some child => simp

/-- Walking off the inserted word after `insert` finds what was there before. -/
theorem descend_insertNode_off (lw : String) (f : Int) (w p : List Char) (t : TrieNode)
    (h : ¬ p <+: w) : descend (insertNode lw f w t).1 p = descend t p := by
  induction w generalizing t p with
  | nil =>
    cases p with
    | nil => exact absurd (List.prefix_refl _) h
    | cons c p' =>
      rw [insertNode_nil]
      split <;> simp [descend_cons]
  | cons ch rest ih =>
    cases p with
    | nil => exact absurd (List.nil_prefix) h
    | cons c p' =>
      rw [insertNode_cons, descend_cons, descend_cons]
      simp only [TrieNode.children_mk]
      by_cases hc : c = ch
      · subst hc
        have hp : ¬ p' <+: rest := fun hp => h ((List.prefix_cons_inj c).2 hp)
        rw [JSMap.get_set_same, Option.some_bind, ih _ _ hp]
        cases hg : JSMap.get t.children c with
        | none =>
          cases p' with
          | nil => exact absurd (List.nil_prefix) hp
          | cons d p'' => simp [descend_new_cons]
        | some child => simp
      · rw [JSMap.get_set_other _ _ hc]

/-! ## The record at a path, before and after `insert` -/

theorem entryAt_new (p : List Char) : entryAt TrieNode.new p = none := by
  cases p with
  | nil => simp [entryAt, descend_nil]
  | cons ch rest => simp [entryAt, descend_new_cons]

theorem entryAt_cons (t : TrieNode) (ch : Char) (rest : List Char) :
    entryAt t (ch :: rest) =
      (JSMap.get t.children ch).bind (fun child => entryAt child rest) := by
  unfold entryAt
  rw [descend_cons]
  cases JSMap.get t.children ch <;> simp

theorem entryAt_append (t n : TrieNode) (p q : List Char) (h : descend t p = some n) :
    entryAt t (p ++ q) = entryAt n q := by
  unfold entryAt
  rw [descend_append, h]
  simp

/-- At the inserted word the record is new with the given frequency, or the old one with the
frequency added. -/
theorem entryAt_insertNode_same (lw : String) (f : Int) (w : List Char) (t : TrieNode) :
    entryAt (insertNode lw f w t).1 w =
      some (match entryAt t w with
        | some e => (e.1, e.2 + f)
        | none => (lw, f)) := by
  have h := descend_insertNode_along lw f w [] t
  rw [List.append_nil] at h
  unfold entryAt
  rw [h, insertNode_nil]
  cases hd : descend t w with
  | none => simp
  | some m =>
    by_cases he : m.isEndOfWord = true
    · simp [he]
    · simp [he]

/-- Every other path keeps its record. -/
theorem entryAt_insertNode_other (lw : String) (f : Int) (w p : List Char) (t : TrieNode)
    (h : p ≠ w) : entryAt (insertNode lw f w t).1 p = entryAt t p := by
  by_cases hp : p <+: w
  · obtain ⟨q, rfl⟩ := hp
    cases q with
    | nil => simp at h
    | cons c q' =>
      unfold entryAt
      rw [descend_insertNode_along, insertNode_cons]
      cases hd : descend t p with
      | none => simp
      | some m => simp
  · unfold entryAt
    rw [descend_insertNode_off lw f w p t hp]

/-- The flag returned by `insertNode` says that the word had no record. -/
theorem insertNode_snd (lw : String) (f : Int) (w : List Char) (t : TrieNode) :
    (insertNode lw f w t).2 = (entryAt t w).isNone := by
  induction w generalizing t with
  | nil =>
    rw [insertNode_nil]
    by_cases he : t.isEndOfWord = true <;> simp [entryAt, descend_nil, he]
  | cons ch rest ih =>
    rw [insertNode_cons, entryAt_cons]
    simp only [ih]
    cases hg : JSMap.get t.children ch with
    | none => simp [entryAt_new]
    | some child => simp

/-! ## Stores built by `insert` -/

theorem build_nil : build host [] = AutocompleteChatbotUI.empty := rfl

theorem build_append_singleton (ops : List (String × Int)) (op : String × Int) :
    build host (ops ++ [op]) = (build host ops).insert host op.1 op.2 := by
  simp [build, List.foldl_append]

theorem insert_root (s : AutocompleteChatbotUI) (word : String) (f : Int) :
    (s.insert host word f).root =
      (insertNode (toLowerCase host word) f (toLowerCase host word).data s.root).1 := rfl

theorem insert_totalWords (s : AutocompleteChatbotUI) (word : String) (f : Int) :
    (s.insert host word f).totalWords =
      if (entryAt s.root (toLowerCase host word).data).isNone then s.totalWords + 1
      else s.totalWords := by
  simp only [AutocompleteChatbotUI.insert, insertNode_snd]

theorem insert_totalInsertions (s : AutocompleteChatbotUI) (word : String) (f : Int) :
    (s.insert host word f).totalInsertions = s.totalInsertions + f := rfl

theorem totalFrequency_append_singleton (ops : List (String × Int)) (op : String × Int)
    (w : String) :
    totalFrequency host (ops ++ [op]) w =
      totalFrequency host ops w + (if toLowerCase host op.1 = w then op.2 else 0) := by
  unfold totalFrequency
  rw [List.filter_append, List.map_append, List.sum_append]
  by_cases h : toLowerCase host op.1 = w <;> simp [List.filter, h]

theorem totalFrequency_of_not_mem (ops : List (String × Int)) (w : String)
    (h : w ∉ insertedWords host ops) : totalFrequency host ops w = 0 := by
  unfold totalFrequency
  have : ops.filter (fun p => toLowerCase host p.1 = w) = [] := by
    rw [List.filter_eq_nil_iff]
    intro a ha hw
    apply h
    simp only [decide_eq_true_eq] at hw
    exact List.mem_map.2 ⟨a, ha, hw⟩
  simp [this]

/-- The record at every path of a store built by `insert` calls: the lowercase word itself with
the sum of its frequencies when the path spells an inserted word, nothing otherwise. -/
theorem entryAt_build (ops : List (String × Int)) (p : List Char) :
    entryAt (build host ops).root p =
      if String.mk p ∈ insertedWords host ops then
        some (String.mk p, totalFrequency host ops (String.mk p))
      else none := by
  induction ops using List.reverseRecOn with
  | nil => simp [build_nil, AutocompleteChatbotUI.empty, entryAt_new, insertedWords]
  | append_singleton ops op ih =>
    rw [build_append_singleton, insert_root, totalFrequency_append_singleton]
    have hmem : String.mk p ∈ insertedWords host (ops ++ [op]) ↔
        String.mk p ∈ insertedWords host ops ∨ toLowerCase host op.1 = String.mk p := by
      simp [insertedWords, eq_comm]
    by_cases hp : p = (toLowerCase host op.1).data
    · have hw : toLowerCase host op.1 = String.mk p := by rw [hp]
      rw [if_pos (hmem.2 (Or.inr hw)), if_pos hw]
      conv_lhs => rw [hp]
      rw [entryAt_insertNode_same, ← hp, ih]
      by_cases hin : String.mk p ∈ insertedWords host ops
      · simp [hin]
      · simp [hin, totalFrequency_of_not_mem ops _ hin, hw]
    · have hw : ¬ toLowerCase host op.1 = String.mk p := by
        intro h
        apply hp
        rw [h]
      rw [entryAt_insertNode_other _ _ _ _ _ hp, ih, if_neg hw]
      by_cases hin : String.mk p ∈ insertedWords host ops
      · simp [hin, hmem]
      · simp [hin, hmem, hw]

theorem keysOK_new : KeysOK TrieNode.new := by
  intro p m h
  cases p with
  | nil =>
    simp only [descend_nil, Option.some.injEq] at h
    subst h
    simp
  | cons ch rest => simp [descend_new_cons] at h

theorem keys_insertNode (lw : String) (f : Int) (q : List Char) (n : TrieNode)
    (h : (n.children.map Prod.fst).Nodup) :
    ((insertNode lw f q n).1.children.map Prod.fst).Nodup := by
  cases q with
  | nil =>
    rw [insertNode_nil]
    split <;> simpa using h
  | cons c q' =>
    rw [insertNode_cons]
    simpa using JSMap.nodup_keys_set h c _

theorem keysOK_insertNode (lw : String) (f : Int) (w : List Char) (t : TrieNode)
    (h : KeysOK t) : KeysOK (insertNode lw f w t).1 := by
  intro p m hm
  by_cases hp : p <+: w
  · obtain ⟨q, rfl⟩ := hp
    rw [descend_insertNode_along] at hm
    simp only [Option.some.injEq] at hm
    subst hm
    apply keys_insertNode
    cases hd : descend t p with
    | none => simp
    | some n => simpa using h p n hd
  · rw [descend_insertNode_off lw f w p t hp] at hm
    exact h p m hm

theorem keysOK_build (ops : List (String × Int)) : KeysOK (build host ops).root := by
  induction ops using List.reverseRecOn with
  | nil => exact keysOK_new
  | append_singleton ops op ih =>
    rw [build_append_singleton, insert_root]
    exact keysOK_insertNode _ _ _ _ ih

/-! ## What `collectWords` gathers -/

/-- Induction on the tree: a property holds of every node when it holds of a node as soon as it
holds of all its children. -/
theorem TrieNode.induct {P : TrieNode → Prop}
    (h : ∀ cs e f w, (∀ p ∈ cs, P p.2) → P (TrieNode.mk cs e f w)) : ∀ t, P t := by
  intro t
  refine @TrieNode.rec P (fun cs => ∀ p ∈ cs, P p.2) (fun p => P p.2) ?_ ?_ ?_ ?_ t
  · intro cs e f w ih
    exact h cs e f w ih
  · intro p hp
    simp at hp
  · intro hd tl ih1 ih2 p hp
    rcases List.mem_cons.1 hp with rfl | hp
    · exact ih1
    · exact ih2 p hp
  · intro c n ih
    exact ih

theorem collectChildren_eq (cs : List (Char × TrieNode))
    (h : ∀ p ∈ cs, ∀ acc, collectWords p.2 acc = acc ++ collectWords p.2 []) :
    ∀ acc, collectChildren cs acc = acc ++ cs.flatMap (fun p => collectWords p.2 []) := by
  induction cs with
  | nil =>
    intro acc
    simp [collectChildren]
  | cons hd tl ih =>
    intro acc
    obtain ⟨c, child⟩ := hd
    rw [collectChildren, ih (fun p hp => h p (List.mem_cons_of_mem _ hp)),
      h (c, child) (List.mem_cons_self _ _)]
    simp

/-- The accumulator of `collectWords` only grows at its end. -/
theorem collectWords_acc (t : TrieNode) :
    ∀ acc, collectWords t acc = acc ++ collectWords t [] := by
  induction t using TrieNode.induct with
  | h cs e f w ih =>
    intro acc
    rw [collectWords, collectWords, collectChildren_eq cs ih, collectChildren_eq cs ih]
    cases e <;> simp

/-- The words below a node: its own record when it is terminal, then those below each child in
the order of the map. -/
theorem collectWords_mk (cs : List (Char × TrieNode)) (e : Bool) (f : Int) (w : String) :
    collectWords (TrieNode.mk cs e f w) [] =
      (if e then [(w, f)] else []) ++ cs.flatMap (fun p => collectWords p.2 []) := by
  rw [collectWords, collectChildren_eq cs (fun p _ => collectWords_acc p.2)]
  cases e <;> simp

theorem keysOK_child {t : TrieNode} (h : KeysOK t) (c : Char) (child : TrieNode)
    (hc : (c, child) ∈ t.children) : JSMap.get t.children c = some child ∧ KeysOK child := by
  have hg : JSMap.get t.children c = some child :=
    JSMap.get_of_mem (h [] t (descend_nil t)) hc
  refine ⟨hg, ?_⟩
  intro p m hm
  apply h (c :: p) m
  rw [descend_cons, hg]
  exact hm

theorem wordsAt_child {pre : List Char} {t : TrieNode} (h : WordsAt pre t) {c : Char}
    {child : TrieNode} (hg : JSMap.get t.children c = some child) :
    WordsAt (pre ++ [c]) child := by
  intro p e he
  have := h (c :: p) e (by rw [entryAt_cons, hg]; exact he)
  simpa using this

/-- Every record that a walk from the node can reach is gathered. -/
theorem mem_collectWords_of_entryAt (p : List Char) :
    ∀ (t : TrieNode) (e : String × Int), entryAt t p = some e → e ∈ collectWords t [] := by
  induction p with
  | nil =>
    intro t e h
    obtain ⟨cs, b, f, w⟩ := t
    rw [collectWords_mk]
    cases b with
    | false => simp [entryAt, descend_nil] at h
    | true =>
      simp [entryAt, descend_nil] at h
      simp [← h]
  | cons c rest ih =>
    intro t e h
    obtain ⟨cs, b, f, w⟩ := t
    rw [entryAt_cons] at h
    simp only [TrieNode.children_mk] at h
    cases hg : JSMap.get cs c with
    | none => simp [hg] at h
    | some child =>
      rw [hg] at h
      rw [collectWords_mk]
      apply List.mem_append_right
      exact List.mem_flatMap.2 ⟨(c, child), JSMap.mem_of_get hg, ih child e h⟩

/-- Everything gathered is the record of some path below the node. -/
theorem entryAt_of_mem_collectWords (t : TrieNode) :
    KeysOK t → ∀ e, e ∈ collectWords t [] → ∃ p, entryAt t p = some e := by
  induction t using TrieNode.induct with
  | h cs b f w ih =>
    intro hk e he
    rw [collectWords_mk] at he
    rcases List.mem_append.1 he with h1 | h2
    · refine ⟨[], ?_⟩
      cases b with
      | false => simp at h1
      | true =>
        simp at h1
        simp [entryAt, descend_nil, h1]
    · obtain ⟨⟨c, child⟩, hmem, hin⟩ := List.mem_flatMap.1 h2
      have hch := keysOK_child hk c child (by simpa using hmem)
      obtain ⟨p, hp⟩ := ih (c, child) hmem hch.2 e hin
      refine ⟨c :: p, ?_⟩
      rw [entryAt_cons, hch.1]
      exact hp

theorem mem_collectWords_iff {t : TrieNode} (hk : KeysOK t) (e : String × Int) :
    e ∈ collectWords t [] ↔ ∃ p, entryAt t p = some e :=
  ⟨entryAt_of_mem_collectWords t hk e, fun ⟨p, hp⟩ => mem_collectWords_of_entryAt p t e hp⟩

/-- No word is gathered twice. -/
theorem nodup_collectWords (t : TrieNode) :
    ∀ pre, KeysOK t → WordsAt pre t → ((collectWords t []).map Prod.fst).Nodup := by
  induction t using TrieNode.induct with
  | h cs b f w ih =>
    intro pre hk hw
    rw [collectWords_mk, List.map_append, List.nodup_append]
    have hkeys : (cs.map Prod.fst).Nodup := by simpa using hk [] _ (descend_nil _)
    have hbelow : ∀ p ∈ cs, ∀ x ∈ (collectWords p.2 []).map Prod.fst,
        ∃ q, x.data = pre ++ p.1 :: q := by
      intro p hp x hx
      obtain ⟨e, he, rfl⟩ := List.mem_map.1 hx
      have hch := keysOK_child hk p.1 p.2 (by simpa using hp)
      obtain ⟨q, hq⟩ := entryAt_of_mem_collectWords p.2 hch.2 e he
      exact ⟨q, by simpa using wordsAt_child hw hch.1 q e hq⟩
    refine ⟨?_, ?_, ?_⟩
    · cases b <;> simp
    · rw [List.map_flatMap, List.nodup_flatMap]
      constructor
      · intro p hp
        have hch := keysOK_child hk p.1 p.2 (by simpa using hp)
        exact ih p hp (pre ++ [p.1]) hch.2 (wordsAt_child hw hch.1)
      · have hpw : List.Pairwise (fun a b : Char × TrieNode => a.1 ≠ b.1) cs :=
          List.pairwise_map.1 hkeys
        refine List.Pairwise.imp_of_mem ?_ hpw
        intro a b ha hb hab x hxa hxb
        obtain ⟨q1, h1⟩ := hbelow a ha x hxa
        obtain ⟨q2, h2⟩ := hbelow b hb x hxb
        rw [h1] at h2
        have := List.append_cancel_left h2
        simp at this
        exact hab this.1
    · intro x hx1 hx2
      cases b with
      | false => simp at hx1
      | true =>
        simp only [if_true, List.map_cons, List.map_nil, List.mem_singleton] at hx1
        subst hx1
        have h0 : x.data = pre ++ [] := hw [] (x, f) (by simp [entryAt, descend_nil])
        rw [List.map_flatMap] at hx2
        obtain ⟨p, hp, hxp⟩ := List.mem_flatMap.1 hx2
        obtain ⟨q, hq⟩ := hbelow p hp x hxp
        rw [hq] at h0
        have := List.append_cancel_left h0
        simp at this

/-! ## Counting terminal nodes -/

theorem countTerminal_new : countTerminal TrieNode.new = 0 := by
  simp [TrieNode.new, countTerminal, countTerminalChildren]

theorem countTerminal_eq (t : TrieNode) :
    countTerminal t = (if t.isEndOfWord then 1 else 0) + countTerminalChildren t.children := by
  obtain ⟨cs, e, f, w⟩ := t
  simp [countTerminal]

theorem countTerminalChildren_set (cs : List (Char × TrieNode)) (ch : Char) (v : TrieNode) :
    countTerminalChildren (JSMap.set cs ch v) +
        countTerminal ((JSMap.get cs ch).getD TrieNode.new) =
      countTerminalChildren cs + countTerminal v := by
  induction cs with
  | nil => simp [JSMap.set, JSMap.get, countTerminalChildren, countTerminal_new]
  | cons hd tl ih =>
    obtain ⟨k, v0⟩ := hd
    by_cases hk : k = ch
    · simp [JSMap.set, JSMap.get, hk, countTerminalChildren]
      omega
    · simp only [JSMap.set, JSMap.get, hk, if_false, countTerminalChildren]
      omega

/-- The number of terminal nodes grows by one exactly when `insert` takes its `else` branch. -/
theorem countTerminal_insertNode (lw : String) (f : Int) (w : List Char) (t : TrieNode) :
    countTerminal (insertNode lw f w t).1 =
      countTerminal t + (if (insertNode lw f w t).2 then 1 else 0) := by
  induction w generalizing t with
  | nil =>
    rw [insertNode_nil, countTerminal_eq t]
    by_cases he : t.isEndOfWord = true <;> simp [he, countTerminal, Nat.add_comm]
  | cons ch rest ih =>
    rw [insertNode_cons, countTerminal_eq t]
    simp only [countTerminal]
    have h1 := countTerminalChildren_set t.children ch
      (insertNode lw f rest ((JSMap.get t.children ch).getD TrieNode.new)).1
    have h2 := ih ((JSMap.get t.children ch).getD TrieNode.new)
    omega

theorem insert_countTerminal (s : AutocompleteChatbotUI) (word : String) (f : Int)
    (h : s.totalWords = countTerminal s.root) :
    (s.insert host word f).totalWords = countTerminal (s.insert host word f).root := by
  simp only [AutocompleteChatbotUI.insert, countTerminal_insertNode, h]
  split <;> simp

theorem totalWords_build (ops : List (String × Int)) :
    (build host ops).totalWords = countTerminal (build host ops).root := by
  induction ops using List.reverseRecOn with
  | nil => simp [build_nil, AutocompleteChatbotUI.empty, countTerminal_new]
  | append_singleton ops op ih =>
    rw [build_append_singleton]
    exact insert_countTerminal _ _ _ ih

theorem length_flatMap_collectWords (cs : List (Char × TrieNode))
    (h : ∀ p ∈ cs, (collectWords p.2 []).length = countTerminal p.2) :
    (cs.flatMap (fun p => collectWords p.2 [])).length = countTerminalChildren cs := by
  induction cs with
  | nil => simp [countTerminalChildren]
  | cons hd tl ih =>
    obtain ⟨c, child⟩ := hd
    rw [List.flatMap_cons, List.length_append, countTerminalChildren,
      ih (fun p hp => h p (List.mem_cons_of_mem _ hp)), h (c, child) (List.mem_cons_self _ _)]

/-- The array that `collectWords` fills has one entry for each terminal node. -/
theorem length_collectWords (t : TrieNode) :
    (collectWords t []).length = countTerminal t := by
  induction t using TrieNode.induct with
  | h cs e f w ih =>
    rw [collectWords_mk, List.length_append, length_flatMap_collectWords cs ih, countTerminal]
    cases e <;> simp

theorem countTerminal_le_of_mem {cs : List (Char × TrieNode)} {p : Char × TrieNode}
    (h : p ∈ cs) : countTerminal p.2 ≤ countTerminalChildren cs := by
  induction cs with
  | nil => simp at h
  | cons hd tl ih =>
    obtain ⟨c, child⟩ := hd
    rw [countTerminalChildren]
    rcases List.mem_cons.1 h with rfl | h
    · simp
    · have := ih h
      omega

theorem countTerminal_descend_le (p : List Char) :
    ∀ (t n : TrieNode), descend t p = some n → countTerminal n ≤ countTerminal t := by
  induction p with
  | nil =>
    intro t n h
    simp only [descend_nil, Option.some.injEq] at h
    rw [h]
  | cons c rest ih =>
    intro t n h
    rw [descend_cons] at h
    cases hg : JSMap.get t.children c with
    | none => simp [hg] at h
    | some child =>
      rw [hg] at h
      have h1 := ih child n h
      have h2 := countTerminal_le_of_mem (JSMap.mem_of_get hg)
      rw [countTerminal_eq t]
      simp only at h2
      omega

theorem length_matchesOf_le (s : AutocompleteChatbotUI) (pfx : String) :
    (matchesOf host s pfx).length ≤ countTerminal s.root := by
  unfold matchesOf
  cases h : descend s.root (toLowerCase host pfx).data with
  | none => simp
  | some n =>
    simp only [length_collectWords]
    exact countTerminal_descend_le _ _ _ h

/-! ## The comparison of words and the sort -/

/-- The order that the comparison function of `getSuggestions` sorts by. -/
theorem compareWords_nonpos (a b : String × Int) :
    compareWords host a b ≤ 0 ↔
      b.2 < a.2 ∨ (a.2 = b.2 ∧ host.localeCompare a.1 b.1 ≤ 0) := by
  unfold compareWords
  by_cases h : a.2 = b.2
  · simp [h]
  · simp only [h, if_false, false_and, or_false]
    omega

theorem compareWords_total (hc : host.Consistent) (a b : String × Int) :
    compareWords host a b ≤ 0 ∨ compareWords host b a ≤ 0 := by
  rw [compareWords_nonpos, compareWords_nonpos]
  rcases lt_trichotomy a.2 b.2 with h | h | h
  · exact Or.inr (Or.inl h)
  · rcases hc.1 a.1 b.1 with h' | h'
    · exact Or.inl (Or.inr ⟨h, h'⟩)
    · exact Or.inr (Or.inr ⟨h.symm, h'⟩)
  · exact Or.inl (Or.inl h)

theorem compareWords_trans (hc : host.Consistent) (a b c : String × Int)
    (h1 : compareWords host a b ≤ 0) (h2 : compareWords host b c ≤ 0) :
    compareWords host a c ≤ 0 := by
  rw [compareWords_nonpos] at *
  rcases h1 with h1 | ⟨h1, h1'⟩ <;> rcases h2 with h2 | ⟨h2, h2'⟩
  · exact Or.inl (lt_trans h2 h1)
  · exact Or.inl (by omega)
  · exact Or.inl (by omega)
  · exact Or.inr ⟨h1.trans h2, hc.2 _ _ _ h1' h2'⟩

theorem arraySort_perm {α : Type} (compareFn : α → α → Int) (xs : List α) :
    (arraySort compareFn xs).Perm xs :=
  List.perm_insertionSort _ xs

/-- After the sort of `getSuggestions` every entry is ranked before all the later ones, when the
host compares consistently. -/
theorem arraySort_compareWords_sorted (hc : host.Consistent) (xs : List (String × Int)) :
    List.Pairwise (fun a b => compareWords host a b ≤ 0)
      (arraySort (compareWords host) xs) := by
  haveI : IsTotal (String × Int) (fun a b => compareWords host a b ≤ 0) :=
    ⟨compareWords_total hc⟩
  haveI : IsTrans (String × Int) (fun a b => compareWords host a b ≤ 0) :=
    ⟨compareWords_trans hc⟩
  exact List.sorted_insertionSort (fun a b => compareWords host a b ≤ 0) xs

/-! ## The result of `getSuggestions` -/

theorem getSuggestions_eq (s : AutocompleteChatbotUI) (pfx : String) (limit : Int) :
    s.getSuggestions host pfx limit =
      (arraySlice (arraySort (compareWords host) (matchesOf host s pfx)) limit).map
        toSuggestion := by
  simp only [AutocompleteChatbotUI.getSuggestions, matchesOf]
  cases descend s.root (toLowerCase host pfx).data with
  | none => simp [arraySort, arraySlice]
  | some n => rfl

theorem arraySlice_of_length_le {α : Type} (xs : List α) (limit : Int)
    (h : (xs.length : Int) ≤ limit) : arraySlice xs limit = xs := by
  unfold arraySlice
  have h0 : ¬ limit < 0 := by omega
  rw [if_neg h0]
  apply List.take_of_length_le
  omega

theorem arraySlice_sublist {α : Type} (xs : List α) (limit : Int) :
    (arraySlice xs limit).Sublist xs := by
  unfold arraySlice
  split <;> exact List.take_sublist _ _

theorem toSuggestion_injective : Function.Injective toSuggestion := by
  intro a b h
  obtain ⟨a1, a2⟩ := a
  obtain ⟨b1, b2⟩ := b
  simp only [toSuggestion, Suggestion.mk.injEq] at h
  simp [h.1, h.2]

theorem keysOK_descend {t n : TrieNode} (h : KeysOK t) {p : List Char}
    (hd : descend t p = some n) : KeysOK n := by
  intro q m hm
  apply h (p ++ q) m
  rw [descend_append, hd]
  exact hm

theorem descend_of_entryAt {t : TrieNode} {p : List Char} {e : String × Int}
    (h : entryAt t p = some e) : ∃ n, descend t p = some n := by
  unfold entryAt at h
  cases hd : descend t p with
  | none => simp [hd] at h
  | some n => exact ⟨n, rfl⟩

theorem entryAt_build_word (ops : List (String × Int)) (w : String) :
    entryAt (build host ops).root w.data =
      if w ∈ insertedWords host ops then some (w, totalFrequency host ops w) else none :=
  entryAt_build ops w.data

theorem wordsAt_build (ops : List (String × Int)) {p : List Char} {n : TrieNode}
    (hd : descend (build host ops).root p = some n) : WordsAt p n := by
  intro q e he
  have h := entryAt_append _ n p q hd
  rw [he, entryAt_build] at h
  split at h
  · simp only [Option.some.injEq] at h
    rw [← h]
  · simp at h

/-- The words that `getSuggestions` collects in a store built by `insert` calls: the inserted
lowercase words that start with the lowercase prefix, each with the sum of its frequencies. -/
theorem mem_matchesOf_build (ops : List (String × Int)) (pfx : String) (e : String × Int) :
    e ∈ matchesOf host (build host ops) pfx ↔
      e.1 ∈ insertedWords host ops ∧ (toLowerCase host pfx).data <+: e.1.data ∧
        e.2 = totalFrequency host ops e.1 := by
  unfold matchesOf
  cases hd : descend (build host ops).root (toLowerCase host pfx).data with
  | none =>
    simp only [List.not_mem_nil, false_iff, not_and]
    intro hin hpre
    obtain ⟨q, hq⟩ := hpre
    have he := @entryAt_build_word host ops e.1
    rw [if_pos hin] at he
    obtain ⟨n, hn⟩ := descend_of_entryAt he
    rw [← hq, descend_append, hd] at hn
    simp at hn
  | some n =>
    simp only
    rw [mem_collectWords_iff (keysOK_descend (keysOK_build ops) hd)]
    constructor
    · rintro ⟨q, hq⟩
      have h := entryAt_append _ n _ q hd
      rw [hq, entryAt_build] at h
      split at h
      · rename_i hin
        simp only [Option.some.injEq] at h
        rw [← h]
        exact ⟨hin, ⟨q, rfl⟩, rfl⟩
      · simp at h
    · rintro ⟨hin, ⟨q, hq⟩, hf⟩
      refine ⟨q, ?_⟩
      rw [← entryAt_append _ n _ q hd, hq, entryAt_build_word, if_pos hin, ← hf]

theorem nodup_matchesOf_build (ops : List (String × Int)) (pfx : String) :
    ((matchesOf host (build host ops) pfx).map Prod.fst).Nodup := by
  unfold matchesOf
  cases hd : descend (build host ops).root (toLowerCase host pfx).data with
  | none => simp
  | some n =>
    exact nodup_collectWords n _ (keysOK_descend (keysOK_build ops) hd) (wordsAt_build ops hd)

theorem map_word_toSuggestion (xs : List (String × Int)) :
    (xs.map toSuggestion).map Suggestion.word = xs.map Prod.fst := by
  simp [List.map_map, Function.comp_def, toSuggestion]

theorem mem_map_toSuggestion (xs : List (String × Int)) (w : String) (f : Int) :
    ({ word := w, frequency := f } : Suggestion) ∈ xs.map toSuggestion ↔ (w, f) ∈ xs := by
  rw [show ({ word := w, frequency := f } : Suggestion) = toSuggestion (w, f) from rfl]
  exact List.mem_map_of_injective toSuggestion_injective

/-! ## The sample host -/

theorem compareKeys_lt (a : List Nat) : ∀ b : List Nat, compareKeys a b < 0 ↔ a < b := by
  induction a with
  | nil =>
    intro b
    cases b with
    | nil => simp [compareKeys]
    | cons c cs => simp [compareKeys, List.nil_lt_cons]
  | cons x xs ih =>
    intro b
    cases b with
    | nil => simp [compareKeys]
    | cons c cs =>
      rw [compareKeys]
      by_cases h1 : x < c
      · simp only [h1, if_true]
        have hl : (x :: xs) < (c :: cs) := List.Lex.rel h1
        simp [hl]
      · by_cases h2 : c < x
        · simp only [h1, h2, if_true, if_false]
          have hl : (c :: cs) < (x :: xs) := List.Lex.rel h2
          simp [le_of_lt hl]
        · have hxc : x = c := le_antisymm (not_lt.1 h2) (not_lt.1 h1)
          subst hxc
          simp only [h1, if_false]
          rw [ih cs]
          exact (List.Lex.cons_iff).symm

theorem compareKeys_eq (a : List Nat) : ∀ b : List Nat, compareKeys a b = 0 ↔ a = b := by
  induction a with
  | nil =>
    intro b
    cases b <;> simp [compareKeys]
  | cons x xs ih =>
    intro b
    cases b with
    | nil => simp [compareKeys]
    | cons c cs =>
      rw [compareKeys]
      by_cases h1 : x < c
      · simp [h1, ne_of_lt h1]
      · by_cases h2 : c < x
        · simp [h1, h2, (ne_of_lt h2).symm]
        · have hxc : x = c := le_antisymm (not_lt.1 h2) (not_lt.1 h1)
          subst hxc
          simp [ih cs]

theorem compareKeys_nonpos (a b : List Nat) : compareKeys a b ≤ 0 ↔ a ≤ b := by
  constructor
  · intro h
    rcases (by omega : compareKeys a b < 0 ∨ compareKeys a b = 0) with h | h
    · exact le_of_lt ((compareKeys_lt a b).1 h)
    · exact le_of_eq ((compareKeys_eq a b).1 h)
  · intro h
    rcases lt_or_eq_of_le h with h | h
    · have := (compareKeys_lt a b).2 h
      omega
    · have := (compareKeys_eq a b).2 h
      omega

/-- The sample host compares consistently. -/
theorem sampleHost_consistent : sampleHost.Consistent := by
  constructor
  · intro a b
    simp only [sampleHost, compareKeys_nonpos]
    exact le_total _ _
  · intro a b c h1 h2
    simp only [sampleHost, compareKeys_nonpos] at *
    exact le_trans h1 h2

theorem length_lowerChars (cs : List Char) :
    ∀ b : Bool, (lowerChars b cs).length = cs.length := by
  induction cs with
  | nil =>
    intro b
    simp [lowerChars]
  | cons c rest ih =>
    intro b
    simp [lowerChars, ih]

/-- In the sample host only the empty string has an empty lowercase form. -/
theorem sampleHost_toLowerCase_eq_empty (w : String) :
    toLowerCase sampleHost w = "" ↔ w = "" := by
  obtain ⟨cs⟩ := w
  have hlen := length_lowerChars cs false
  constructor
  · intro h
    have h2 : lowerChars false cs = [] := congrArg String.data h
    rw [h2] at hlen
    have h3 : cs = [] := List.length_eq_zero.1 hlen.symm
    rw [h3]
  · intro h
    have h3 : cs = [] := congrArg String.data h
    rw [h3]
    rfl

/-! ## Stores of two hosts -/

theorem insert_congr {host2 : Host} (s : AutocompleteChatbotUI) (w : String) (f : Int)
    (h : toLowerCase host w = toLowerCase host2 w) : s.insert host w f = s.insert host2 w f := by
  simp only [AutocompleteChatbotUI.insert, h]

/-- Two hosts that give the inserted words the same lowercase forms build the same store. -/
theorem build_congr {host2 : Host} (ops : List (String × Int))
    (h : ∀ p ∈ ops, toLowerCase host p.1 = toLowerCase host2 p.1) :
    build host ops = build host2 ops := by
  induction ops using List.reverseRecOn with
  | nil => rfl
  | append_singleton ops op ih =>
    rw [build_append_singleton, build_append_singleton,
      ih (fun p hp => h p (List.mem_append_left _ hp)),
      insert_congr _ _ _ (h op (by simp))]

/-! ## The contract of the store -/

/-- C1: for every host, in a store built from the empty store by `insert` calls,
`getSuggestions(p, limit)` with a limit of at least the number of stored words returns no word
twice, and returns exactly the pairs of an inserted lowercase word that starts with the
lowercase prefix and the sum of the frequencies of its insertions; with any limit it returns the
empty sequence when no stored word starts with the lowercase prefix. The frequencies need not be
positive for this. -/
theorem getSuggestions_returns_exactly_the_matches (host : Host) (ops : List (String × Int))
    (pfx : String) (limit : Int) (hlimit : ((build host ops).totalWords : Int) ≤ limit) :
    (((build host ops).getSuggestions host pfx limit).map Suggestion.word).Nodup ∧
    (∀ (w : String) (f : Int),
      ({ word := w, frequency := f } : Suggestion) ∈
          (build host ops).getSuggestions host pfx limit ↔
        w ∈ insertedWords host ops ∧ (toLowerCase host pfx).data <+: w.data ∧
          f = totalFrequency host ops w) ∧
    (∀ n : Int, (∀ w ∈ insertedWords host ops, ¬ (toLowerCase host pfx).data <+: w.data) →
      (build host ops).getSuggestions host pfx n = []) := by
  have hlen : ((arraySort (compareWords host)
      (matchesOf host (build host ops) pfx)).length : Int) ≤ limit := by
    rw [(arraySort_perm (compareWords host) _).length_eq]
    have h1 := @length_matchesOf_le host (build host ops) pfx
    rw [← totalWords_build] at h1
    omega
  refine ⟨?_, ?_, ?_⟩
  · rw [getSuggestions_eq, arraySlice_of_length_le _ _ hlen, map_word_toSuggestion]
    exact ((arraySort_perm (compareWords host) _).map Prod.fst).nodup_iff.2
      (nodup_matchesOf_build ops pfx)
  · intro w f
    rw [getSuggestions_eq, arraySlice_of_length_le _ _ hlen, mem_map_toSuggestion,
      (arraySort_perm (compareWords host) _).mem_iff, mem_matchesOf_build]
  · intro n hno
    have hnil : matchesOf host (build host ops) pfx = [] := by
      rw [List.eq_nil_iff_forall_not_mem]
      intro e he
      rw [mem_matchesOf_build] at he
      exact hno e.1 he.1 he.2.1
    rw [getSuggestions_eq, hnil]
    simp [arraySort, arraySlice]

set_option maxRecDepth 100000 in
/-- An instance of C1: in the sample host the store cat:3, car:3, cap:5 holds three words, and
the limit 5 is at least that. -/
theorem getSuggestions_returns_exactly_the_matches_witness :
    (((build sampleHost [("cat", 3), ("car", 3), ("cap", 5)]).totalWords : Int) ≤ 5) ∧
    ((((build sampleHost [("cat", 3), ("car", 3), ("cap", 5)]).getSuggestions sampleHost
        "ca" 5).map Suggestion.word).Nodup ∧
      (∀ (w : String) (f : Int),
        ({ word := w, frequency := f } : Suggestion) ∈
            (build sampleHost [("cat", 3), ("car", 3), ("cap", 5)]).getSuggestions sampleHost
              "ca" 5 ↔
          w ∈ insertedWords sampleHost [("cat", 3), ("car", 3), ("cap", 5)] ∧
            (toLowerCase sampleHost "ca").data <+: w.data ∧
            f = totalFrequency sampleHost [("cat", 3), ("car", 3), ("cap", 5)] w) ∧
      (∀ n : Int,
        (∀ w ∈ insertedWords sampleHost [("cat", 3), ("car", 3), ("cap", 5)],
          ¬ (toLowerCase sampleHost "ca").data <+: w.data) →
        (build sampleHost [("cat", 3), ("car", 3), ("cap", 5)]).getSuggestions sampleHost
          "ca" n = [])) :=
  ⟨by decide,
    getSuggestions_returns_exactly_the_matches sampleHost
      [("cat", 3), ("car", 3), ("cap", 5)] "ca" 5 (by decide)⟩

/-- C2 (amended): for every host whose `localeCompare` compares consistently, every store,
prefix and limit, the result of `getSuggestions` is ranked by descending frequency and, among
entries of equal frequency, in the order of `localeCompare`: each entry has a frequency at least
that of the next one, and when the two frequencies are equal `localeCompare` does not put the
earlier word after the later one; the same holds between any entry and any later one. In the
sample host, on the store cat:3, car:3, cap:5 the query `"ca"` with limit 5 returns cap 5,
car 3, cat 3 in this order. -/
theorem getSuggestions_ranked :
    (∀ (host : Host), host.Consistent →
      ∀ (s : AutocompleteChatbotUI) (pfx : String) (limit : Int),
        List.Chain' (rankedBefore host) (s.getSuggestions host pfx limit) ∧
        List.Pairwise (rankedBefore host) (s.getSuggestions host pfx limit)) ∧
    (build sampleHost [("cat", 3), ("car", 3), ("cap", 5)]).getSuggestions sampleHost "ca" 5 =
      [{ word := "cap", frequency := 5 }, { word := "car", frequency := 3 },
        { word := "cat", frequency := 3 }] := by
  refine ⟨?_, by decide⟩
  intro host hc s pfx limit
  have hpw : List.Pairwise (rankedBefore host) (s.getSuggestions host pfx limit) := by
    rw [getSuggestions_eq, List.pairwise_map]
    refine List.Pairwise.sublist (arraySlice_sublist _ limit) ?_
    refine (arraySort_compareWords_sorted hc (matchesOf host s pfx)).imp ?_
    intro a b hab
    exact (compareWords_nonpos a b).1 hab
  exact ⟨hpw.chain', hpw⟩

set_option maxRecDepth 100000 in
/-- An instance of the amended C2: the sample host compares consistently, and the result of
the query `"ca"` with limit 5 on its store cat:3, car:3, cap:5 is ranked. -/
theorem getSuggestions_ranked_witness :
    sampleHost.Consistent ∧
    List.Chain' (rankedBefore sampleHost)
      ((build sampleHost [("cat", 3), ("car", 3), ("cap", 5)]).getSuggestions sampleHost
        "ca" 5) :=
  ⟨sampleHost_consistent,
    (getSuggestions_ranked.1 sampleHost sampleHost_consistent
      (build sampleHost [("cat", 3), ("car", 3), ("cap", 5)]) "ca" 5).1⟩

set_option maxRecDepth 100000 in
/-- C2 as stated fails: in the sample host, which like `String.prototype.localeCompare` puts
punctuation before digits, the store a1:1, a::1 answers the query `"a"` with `a:` before `a1`;
the frequencies are equal and `a:` is not smaller than `a1` in the lexicographic order of the
code points, it is greater. -/
theorem getSuggestions_ties_not_lexicographic :
    (build sampleHost [("a1", 1), ("a:", 1)]).getSuggestions sampleHost "a" 5 =
      [{ word := "a:", frequency := 1 }, { word := "a1", frequency := 1 }] ∧
    ("a1" : String) < "a:" ∧
    ¬ List.Chain' lexRankedBefore
      ((build sampleHost [("a1", 1), ("a:", 1)]).getSuggestions sampleHost "a" 5) := by
  have hres : (build sampleHost [("a1", 1), ("a:", 1)]).getSuggestions sampleHost "a" 5 =
      [{ word := "a:", frequency := 1 }, { word := "a1", frequency := 1 }] := by decide
  have hlt : ("a1" : String) < "a:" := by
    rw [String.lt_iff_toList_lt]
    exact List.Lex.cons (List.Lex.rel (by decide))
  refine ⟨hres, hlt, ?_⟩
  rw [hres]
  intro h
  simp only [List.chain'_cons, List.chain'_singleton, and_true, lexRankedBefore] at h
  rcases h with h | ⟨_, h⟩
  · exact absurd h (by decide)
  · exact lt_asymm h hlt

theorem search_eq (s : AutocompleteChatbotUI) (word : String) :
    s.search host word = (entryAt s.root (toLowerCase host word).data).isSome := by
  simp only [AutocompleteChatbotUI.search, entryAt]
  cases descend s.root (toLowerCase host word).data with
  | none => rfl
  | some n => cases h : n.isEndOfWord <;> simp [h]

theorem search_build (ops : List (String × Int)) (word : String) :
    (build host ops).search host word = true ↔
      toLowerCase host word ∈ insertedWords host ops := by
  rw [search_eq, entryAt_build_word]
  split <;> simp [*]

theorem build_append_pair (ops : List (String × Int)) (a b : String × Int) :
    build host (ops ++ [a, b]) = ((build host ops).insert host a.1 a.2).insert host b.1 b.2 := by
  simp [build, List.foldl_append]

/-- The result of `getSuggestions` for a limit that is not negative: the first entries of the
sorted matches. -/
theorem getSuggestions_natCast (s : AutocompleteChatbotUI) (pfx : String) (n : Nat) :
    s.getSuggestions host pfx (n : Int) =
      ((arraySort (compareWords host) (matchesOf host s pfx)).map toSuggestion).take n := by
  have h0 : ¬ ((n : Int) < 0) := by omega
  rw [getSuggestions_eq, arraySlice, if_neg h0, List.map_take, Int.toNat_ofNat]

theorem length_arraySort {α : Type} (compareFn : α → α → Int) (xs : List α) :
    (arraySort compareFn xs).length = xs.length :=
  (arraySort_perm compareFn xs).length_eq

/-- With the number of matches as limit, `getSuggestions` returns all the sorted matches. -/
theorem getSuggestions_full (s : AutocompleteChatbotUI) (pfx : String) :
    s.getSuggestions host pfx ((matchesOf host s pfx).length : Int) =
      (arraySort (compareWords host) (matchesOf host s pfx)).map toSuggestion := by
  rw [getSuggestions_natCast]
  apply List.take_of_length_le
  simp [length_arraySort]

/-- The number of matches in a store built by `insert` calls is the number of distinct
lowercase inserted words that start with the lowercase prefix. -/
theorem length_matchesOf_build (ops : List (String × Int)) (pfx : String) :
    (matchesOf host (build host ops) pfx).length = (storedWithPrefix host ops pfx).length := by
  have h1 := @nodup_matchesOf_build host ops pfx
  have h2 : (storedWithPrefix host ops pfx).Nodup :=
    (List.nodup_dedup _).filter _
  have hperm : ((matchesOf host (build host ops) pfx).map Prod.fst).Perm
      (storedWithPrefix host ops pfx) := by
    rw [List.perm_ext_iff_of_nodup h1 h2]
    intro w
    simp only [storedWithPrefix, List.mem_map, List.mem_filter, List.mem_dedup,
      decide_eq_true_eq]
    constructor
    · rintro ⟨e, he, rfl⟩
      rw [mem_matchesOf_build] at he
      exact ⟨he.1, he.2.1⟩
    · rintro ⟨hin, hpre⟩
      exact ⟨(w, totalFrequency host ops w),
        (mem_matchesOf_build ops pfx _).2 ⟨hin, hpre, rfl⟩, rfl⟩
  rw [← hperm.length_eq, List.length_map]

theorem mem_take_of_indexOf_lt {α : Type} [DecidableEq α] (x : α) (l : List α) :
    ∀ n : Nat, x ∈ l → List.indexOf x l < n → x ∈ l.take n := by
  induction l with
  | nil =>
    intro n hx
    simp at hx
  | cons y ys ih =>
    intro n hx hn
    cases n with
    | zero => omega
    | succ m =>
      rw [List.take_succ_cons]
      by_cases hy : y = x
      · simp [hy]
      · have hx2 : x ∈ ys := by
          rcases List.mem_cons.1 hx with h | h
          · exact absurd h.symm hy
          · exact h
        rw [List.indexOf_cons_ne _ hy] at hn
        exact List.mem_cons_of_mem _ (ih m hx2 (by omega))

theorem mem_getSuggestions_full (s : AutocompleteChatbotUI) (pfx : String) (limit : Int)
    (x : Suggestion) (h : x ∈ s.getSuggestions host pfx limit) :
    x ∈ s.getSuggestions host pfx ((matchesOf host s pfx).length : Int) := by
  rw [getSuggestions_full]
  rw [getSuggestions_eq] at h
  exact (List.Sublist.map _ (arraySlice_sublist _ limit)).subset h

/-- An entry of the full result stays in the result for every limit above its position. -/
theorem mem_getSuggestions_of_indexOf_lt (s : AutocompleteChatbotUI) (pfx : String)
    (limit : Int) (x : Suggestion)
    (hx : x ∈ s.getSuggestions host pfx ((matchesOf host s pfx).length : Int))
    (hlimit : ((List.indexOf x
      (s.getSuggestions host pfx ((matchesOf host s pfx).length : Int)) : Nat) : Int) < limit) :
    x ∈ s.getSuggestions host pfx limit := by
  have h0 : ¬ limit < 0 := by omega
  rw [getSuggestions_full] at hx hlimit
  rw [getSuggestions_eq, arraySlice, if_neg h0, List.map_take]
  apply mem_take_of_indexOf_lt x _ _ hx
  omega

/-- C3 (amended): for every host, in a store built by `insert` calls where the word `w` is not
stored, after `insert(w, f)` and then `insert(w, g)` the word is found by `search`; `totalWords`
grows by one at the first insertion and not at the second; `totalInsertions` has grown by
`f + g`; and for every `p` whose lowercase form is a prefix of the lowercase form of `w`,
`getSuggestions(p, limit)` holds the lowercase word with frequency `f + g` for every limit above
the position of the word in the full ranked list, and never with another frequency. Every prefix
of `w` is such a `p` when the host lowercases character by character. Neither a non-empty `w`
nor positive frequencies are needed. -/
theorem insert_twice_accumulates (host : Host) (ops : List (String × Int)) (w : String)
    (f g : Int) (hnew : (build host ops).search host w = false) :
    (((build host ops).insert host w f).insert host w g).search host w = true ∧
    ((build host ops).insert host w f).totalWords = (build host ops).totalWords + 1 ∧
    (((build host ops).insert host w f).insert host w g).totalWords =
      ((build host ops).insert host w f).totalWords ∧
    (((build host ops).insert host w f).insert host w g).totalInsertions =
      (build host ops).totalInsertions + (f + g) ∧
    (∀ p : String, (toLowerCase host p).data <+: (toLowerCase host w).data →
      ({ word := toLowerCase host w, frequency := f + g } : Suggestion) ∈
        (((build host ops).insert host w f).insert host w g).getSuggestions host p
          ((matchesOf host (((build host ops).insert host w f).insert host w g) p).length : Int) ∧
      (∀ limit : Int,
        ((List.indexOf ({ word := toLowerCase host w, frequency := f + g } : Suggestion)
          ((((build host ops).insert host w f).insert host w g).getSuggestions host p
            ((matchesOf host (((build host ops).insert host w f).insert host w g) p).length :
              Int)) : Nat) : Int) < limit →
        ({ word := toLowerCase host w, frequency := f + g } : Suggestion) ∈
          (((build host ops).insert host w f).insert host w g).getSuggestions host p limit) ∧
      (∀ (limit x : Int), ({ word := toLowerCase host w, frequency := x } : Suggestion) ∈
          (((build host ops).insert host w f).insert host w g).getSuggestions host p limit →
        x = f + g)) ∧
    (∀ mapChar : Char → Char,
      (∀ str : String, toLowerCase host str = String.mk (str.data.map mapChar)) →
      ∀ p : String, p.data <+: w.data →
        (toLowerCase host p).data <+: (toLowerCase host w).data) := by
  have hnot : toLowerCase host w ∉ insertedWords host ops := by
    intro hin
    rw [(search_build ops w).2 hin] at hnew
    exact Bool.noConfusion hnew
  have hs2 : ((build host ops).insert host w f).insert host w g =
      build host (ops ++ [(w, f), (w, g)]) :=
    (build_append_pair ops (w, f) (w, g)).symm
  have hin2 : toLowerCase host w ∈ insertedWords host (ops ++ [(w, f), (w, g)]) := by
    simp [insertedWords]
  have htot : totalFrequency host (ops ++ [(w, f), (w, g)]) (toLowerCase host w) = f + g := by
    have h0 := totalFrequency_of_not_mem ops _ hnot
    unfold totalFrequency at *
    rw [List.filter_append, List.map_append, List.sum_append, h0]
    simp [List.filter]
  have hentry1 : entryAt (build host ops).root (toLowerCase host w).data = none := by
    rw [entryAt_build_word, if_neg hnot]
  have hentry2 :
      (entryAt ((build host ops).insert host w f).root (toLowerCase host w).data).isNone =
        false := by
    rw [insert_root, entryAt_insertNode_same]
    rfl
  refine ⟨?_, ?_, ?_, ?_, ?_, ?_⟩
  · rw [hs2, search_build]
    exact hin2
  · rw [insert_totalWords, hentry1]
    simp
  · rw [insert_totalWords, hentry2]
    simp
  · rw [insert_totalInsertions, insert_totalInsertions]
    ring
  · intro p hp
    rw [hs2]
    have hfull : ({ word := toLowerCase host w, frequency := f + g } : Suggestion) ∈
        (build host (ops ++ [(w, f), (w, g)])).getSuggestions host p
          ((matchesOf host (build host (ops ++ [(w, f), (w, g)])) p).length : Int) := by
      rw [getSuggestions_full, mem_map_toSuggestion,
        (arraySort_perm (compareWords host) _).mem_iff, mem_matchesOf_build]
      exact ⟨hin2, hp, htot.symm⟩
    refine ⟨hfull, ?_, ?_⟩
    · intro limit hlimit
      exact mem_getSuggestions_of_indexOf_lt _ p limit _ hfull hlimit
    · intro limit x hx
      have hx2 := mem_getSuggestions_full _ p limit _ hx
      rw [getSuggestions_full, mem_map_toSuggestion,
        (arraySort_perm (compareWords host) _).mem_iff, mem_matchesOf_build] at hx2
      exact hx2.2.2.trans htot
  · intro mapChar hmap p hp
    rw [hmap p, hmap w]
    exact hp.map mapChar

set_option maxRecDepth 100000 in
/-- An instance of the amended C3: in the sample host the store cat:3 does not hold `car`,
which is then inserted with frequencies 2 and 4; the query `"ca"` with limit 5 holds car 6. -/
theorem insert_twice_accumulates_witness :
    (build sampleHost [("cat", 3)]).search sampleHost "car" = false ∧
    ((build sampleHost [("cat", 3)]).insert sampleHost "car" 2).totalWords =
      (build sampleHost [("cat", 3)]).totalWords + 1 ∧
    (((build sampleHost [("cat", 3)]).insert sampleHost "car" 2).insert sampleHost
      "car" 4).totalWords =
      ((build sampleHost [("cat", 3)]).insert sampleHost "car" 2).totalWords ∧
    ({ word := "car", frequency := 6 } : Suggestion) ∈
      (((build sampleHost [("cat", 3)]).insert sampleHost "car" 2).insert sampleHost
        "car" 4).getSuggestions sampleHost "ca" 5 :=
  have h := insert_twice_accumulates sampleHost [("cat", 3)] "car" 2 4 (by decide)
  ⟨by decide, h.2.1, h.2.2.1, ((h.2.2.2.2.1 "ca" (by decide)).2.1 5 (by decide))⟩

set_option maxRecDepth 100000 in
/-- C3 as stated fails: in the sample host, which like `String.prototype.toLowerCase` writes a
capital sigma at the end of a word as the final sigma, `ΑΣ` is a prefix of the word `ΑΣΑ`, but
after that word is inserted twice on the empty store the query `ΑΣ` returns nothing: the
lowercase form of the prefix ends in the final sigma, that of the word has the other one. -/
theorem getSuggestions_prefix_final_sigma :
    (build sampleHost []).search sampleHost "ΑΣΑ" = false ∧
    ("ΑΣ" : String).data <+: ("ΑΣΑ" : String).data ∧
    (toLowerCase sampleHost "ΑΣ").data = [Char.ofNat 0x03B1, Char.ofNat 0x03C2] ∧
    (toLowerCase sampleHost "ΑΣΑ").data =
      [Char.ofNat 0x03B1, Char.ofNat 0x03C3, Char.ofNat 0x03B1] ∧
    (((build sampleHost []).insert sampleHost "ΑΣΑ" 1).insert sampleHost
      "ΑΣΑ" 1).getSuggestions sampleHost "ΑΣ" 5 = [] ∧
    (((build sampleHost []).insert sampleHost "ΑΣΑ" 1).insert sampleHost
      "ΑΣΑ" 1).getSuggestions sampleHost "ΑΣΑ" 5 =
      [{ word := toLowerCase sampleHost "ΑΣΑ", frequency := 2 }] := by
  decide

/-- C4: for every host, in a store built by `insert` calls, `search(w)` is true exactly when the
lowercase form of `w` is the lowercase form of an inserted word; so it is false for a word never
inserted, also when that word is a strict prefix of stored words, and it does not depend on the
letter case of `w` or of the inserted word: in the sample host, after `insert("Hello", 1)`,
`search("hello")` is true. -/
theorem search_iff_inserted :
    (∀ (host : Host) (ops : List (String × Int)) (w : String),
      (build host ops).search host w = true ↔
        ∃ op ∈ ops, toLowerCase host op.1 = toLowerCase host w) ∧
    (∀ (host : Host) (ops : List (String × Int)) (w v : String),
      toLowerCase host w = toLowerCase host v →
      (build host ops).search host w = (build host ops).search host v) ∧
    (∀ (host : Host) (ops : List (String × Int)) (w v : String) (f : Int),
      toLowerCase host w = toLowerCase host v →
      ((build host ops).insert host w f).search host v = true) ∧
    (build sampleHost [("hello", 1), ("help", 1)]).search sampleHost "hel" = false ∧
    (AutocompleteChatbotUI.empty.insert sampleHost "Hello" 1).search sampleHost "hello" =
      true := by
  refine ⟨?_, ?_, ?_, by decide, by decide⟩
  · intro host ops w
    rw [search_build]
    simp [insertedWords]
  · intro host ops w v h
    rw [search_eq, search_eq, h]
  · intro host ops w v f h
    rw [← build_append_singleton ops (w, f), search_build]
    simp [insertedWords, h]

/-- C5 (amended): for every host, store and prefix, `getSuggestions` with limit 0 returns the
empty sequence, and with a negative limit `-k` it returns the ranked matches without their last
`k` entries, as `Array.prototype.slice(0, -k)` does; for a limit that is zero or negative the
result is empty exactly when the limit is 0 or `k` is at least the number of matches. -/
theorem getSuggestions_nonpositive_limit (host : Host) (s : AutocompleteChatbotUI)
    (pfx : String) (limit : Int) (h : limit ≤ 0) :
    (limit = 0 → s.getSuggestions host pfx limit = []) ∧
    (limit < 0 → s.getSuggestions host pfx limit =
      (s.getSuggestions host pfx ((matchesOf host s pfx).length : Int)).take
        ((matchesOf host s pfx).length - limit.natAbs)) ∧
    (s.getSuggestions host pfx limit = [] ↔
      limit = 0 ∨ (matchesOf host s pfx).length ≤ limit.natAbs) := by
  have hneg : limit < 0 → s.getSuggestions host pfx limit =
      (s.getSuggestions host pfx ((matchesOf host s pfx).length : Int)).take
        ((matchesOf host s pfx).length - limit.natAbs) := by
    intro hlt
    rw [getSuggestions_full, getSuggestions_eq, arraySlice, if_pos hlt, List.map_take,
      length_arraySort]
  have hzero : limit = 0 → s.getSuggestions host pfx limit = [] := by
    intro h0
    rw [h0, getSuggestions_eq]
    simp [arraySlice]
  refine ⟨hzero, hneg, ?_⟩
  rcases eq_or_lt_of_le h with h0 | hlt
  · subst h0
    simp [hzero rfl]
  · rw [hneg hlt, getSuggestions_full, List.take_eq_nil_iff, List.map_eq_nil_iff]
    have hlen := length_arraySort (compareWords host) (matchesOf host s pfx)
    constructor
    · rintro (hk | hnil)
      · right
        omega
      · right
        rw [hnil, List.length_nil] at hlen
        omega
    · rintro (h0 | hk)
      · omega
      · left
        omega

set_option maxRecDepth 100000 in
/-- An instance of the amended C5: the limit `-1` on the store cat:3, car:3, cap:5 of the sample
host. -/
theorem getSuggestions_nonpositive_limit_witness :
    ((-1 : Int) ≤ 0) ∧
    (((-1 : Int) = 0 →
      (build sampleHost [("cat", 3), ("car", 3), ("cap", 5)]).getSuggestions sampleHost
        "ca" (-1) = []) ∧
    ((-1 : Int) < 0 →
      (build sampleHost [("cat", 3), ("car", 3), ("cap", 5)]).getSuggestions sampleHost
          "ca" (-1) =
        ((build sampleHost [("cat", 3), ("car", 3), ("cap", 5)]).getSuggestions sampleHost "ca"
          ((matchesOf sampleHost (build sampleHost [("cat", 3), ("car", 3), ("cap", 5)])
            "ca").length : Int)).take
          ((matchesOf sampleHost (build sampleHost [("cat", 3), ("car", 3), ("cap", 5)])
            "ca").length - (-1 : Int).natAbs)) ∧
    ((build sampleHost [("cat", 3), ("car", 3), ("cap", 5)]).getSuggestions sampleHost
        "ca" (-1) = [] ↔
      (-1 : Int) = 0 ∨
        (matchesOf sampleHost (build sampleHost [("cat", 3), ("car", 3), ("cap", 5)])
          "ca").length ≤ (-1 : Int).natAbs)) :=
  ⟨by decide,
    getSuggestions_nonpositive_limit sampleHost
      (build sampleHost [("cat", 3), ("car", 3), ("cap", 5)]) "ca" (-1) (by decide)⟩

set_option maxRecDepth 100000 in
/-- C5 as stated fails: on the store cat:3, car:3, cap:5 of the sample host the limit `-1` is
not positive, and `getSuggestions("ca", -1)` returns cap 5, car 3, not the empty sequence. -/
theorem getSuggestions_negative_limit_not_empty :
    (-1 : Int) ≤ 0 ∧
    (build sampleHost [("cat", 3), ("car", 3), ("cap", 5)]).getSuggestions sampleHost
        "ca" (-1) =
      [{ word := "cap", frequency := 5 }, { word := "car", frequency := 3 }] ∧
    (build sampleHost [("cat", 3), ("car", 3), ("cap", 5)]).getSuggestions sampleHost
        "ca" (-1) ≠ [] := by
  decide

/-- C6: for every host, in a store built by `insert` calls, for every prefix and every limit
`n ≥ 0`, with `m` the number of stored words that start with the lowercase prefix,
`getSuggestions(p, n)` is the first `min(n, m)` entries of `getSuggestions(p, m)`, has length
`min(n, m)`, and is all of `getSuggestions(p, m)` when `n ≥ m`. In the sample host, on the store
cat:3, car:3, cap:5 the query `"ca"` with limit 1 returns cap 5 alone. -/
theorem getSuggestions_truncates :
    (∀ (host : Host) (ops : List (String × Int)) (pfx : String) (n : Nat),
      (build host ops).getSuggestions host pfx (n : Int) =
        ((build host ops).getSuggestions host pfx
          ((storedWithPrefix host ops pfx).length : Int)).take
          (min n (storedWithPrefix host ops pfx).length) ∧
      ((build host ops).getSuggestions host pfx (n : Int)).length =
        min n (storedWithPrefix host ops pfx).length ∧
      ((storedWithPrefix host ops pfx).length ≤ n →
        (build host ops).getSuggestions host pfx (n : Int) =
          (build host ops).getSuggestions host pfx
            ((storedWithPrefix host ops pfx).length : Int))) ∧
    (build sampleHost [("cat", 3), ("car", 3), ("cap", 5)]).getSuggestions sampleHost "ca" 1 =
      [{ word := "cap", frequency := 5 }] := by
  refine ⟨?_, by decide⟩
  intro host ops pfx n
  have hfull := @getSuggestions_full host (build host ops) pfx
  rw [length_matchesOf_build] at hfull
  have hlen : ((arraySort (compareWords host)
      (matchesOf host (build host ops) pfx)).map toSuggestion).length =
      (storedWithPrefix host ops pfx).length := by
    rw [List.length_map, length_arraySort, length_matchesOf_build]
  rw [hfull, getSuggestions_natCast]
  refine ⟨?_, ?_, ?_⟩
  · rw [List.take_eq_take, hlen]
    simp
  · rw [List.length_take, hlen]
  · intro hle
    apply List.take_of_length_le
    rw [hlen]
    exact hle

theorem isEndOfWord_eq (t : TrieNode) : t.isEndOfWord = (entryAt t []).isSome := by
  simp only [entryAt, descend_nil]
  cases h : t.isEndOfWord <;> simp [h]

/-- C7 (amended): for every host in which the empty string, and only it, has the empty lowercase
form, `insert("", f)` creates no node, but it does mark the root terminal, adds `f` to
`totalInsertions`, and adds one to `totalWords` unless the root was terminal already; in a store
built by `insert` calls the root is terminal exactly when the empty string was among the
inserted words, so it is never terminal when only non-empty words are inserted. -/
theorem insert_empty_string (host : Host)
    (hempty : ∀ w : String, toLowerCase host w = "" ↔ w = "") :
    (∀ (s : AutocompleteChatbotUI) (f : Int),
      (s.insert host "" f).root.children = s.root.children ∧
      (s.insert host "" f).root.isEndOfWord = true ∧
      (s.insert host "" f).totalWords =
        (if s.root.isEndOfWord then s.totalWords else s.totalWords + 1) ∧
      (s.insert host "" f).totalInsertions = s.totalInsertions + f) ∧
    (∀ ops : List (String × Int),
      (build host ops).root.isEndOfWord = true ↔ ∃ op ∈ ops, op.1 = "") := by
  constructor
  · intro s f
    have hl : toLowerCase host "" = "" := (hempty "").2 rfl
    have hd : ("" : String).data = [] := rfl
    simp only [AutocompleteChatbotUI.insert, hl, hd, insertNode_nil]
    by_cases he : s.root.isEndOfWord = true
    · simp [he]
    · simp [he]
  · intro ops
    rw [isEndOfWord_eq, show ([] : List Char) = ("" : String).data from rfl,
      entryAt_build_word]
    · split
      · rename_i hin
        simp only [Option.isSome_some, true_iff]
        obtain ⟨op, hop, hw⟩ := List.mem_map.1 hin
        exact ⟨op, hop, (hempty _).1 hw⟩
      · rename_i hnot
        simp only [Option.isSome_none, Bool.false_eq_true, false_iff]
        rintro ⟨op, hop, hw⟩
        exact hnot (List.mem_map.2 ⟨op, hop, (hempty _).2 hw⟩)

/-- An instance of the amended C7: the sample host, where only the empty string has the empty
lowercase form, and its store with the seed words, none of which is empty. -/
theorem insert_empty_string_witness :
    (∀ w : String, toLowerCase sampleHost w = "" ↔ w = "") ∧
    ((build sampleHost defaultWords).insert sampleHost "" 1).root.isEndOfWord = true ∧
    ((build sampleHost defaultWords).root.isEndOfWord = true ↔
      ∃ op ∈ defaultWords, op.1 = "") :=
  have h := insert_empty_string sampleHost sampleHost_toLowerCase_eq_empty
  ⟨sampleHost_toLowerCase_eq_empty, (h.1 (build sampleHost defaultWords) 1).2.1,
    h.2 defaultWords⟩

/-- C7 as stated fails: on the empty store of the sample host `insert("", 1)` makes the root
terminal and raises `totalWords` and `totalInsertions` from 0 to 1. -/
theorem insert_empty_string_marks_root :
    AutocompleteChatbotUI.empty.root.isEndOfWord = false ∧
    AutocompleteChatbotUI.empty.totalWords = 0 ∧
    AutocompleteChatbotUI.empty.totalInsertions = 0 ∧
    (AutocompleteChatbotUI.empty.insert sampleHost "" 1).root.isEndOfWord = true ∧
    (AutocompleteChatbotUI.empty.insert sampleHost "" 1).totalWords = 1 ∧
    (AutocompleteChatbotUI.empty.insert sampleHost "" 1).totalInsertions = 1 ∧
    (build sampleHost [("", 1)]).root.isEndOfWord = true := by
  decide

theorem processInput_eq_insert (s : AutocompleteChatbotUI) (input : String)
    (h1 : trim input ≠ "")
    (h2 : toLowerCase host (trim input) ∉ ["quit", "exit", "stats", "help"]) :
    s.processInput host input = s.insert host input 1 := by
  simp only [List.mem_cons, List.mem_singleton, List.not_mem_nil, or_false, not_or] at h2
  obtain ⟨hq, he, hs, hh⟩ := h2
  simp only [AutocompleteChatbotUI.processInput, if_neg h1, hq, he, hs, hh, or_self, if_false]
  split <;> rfl

theorem frequencyOf_insert (s : AutocompleteChatbotUI) (word : String) (f : Int) :
    frequencyOf host (s.insert host word f) word =
      some (match frequencyOf host s word with
        | some k => k + f
        | none => f) := by
  simp only [frequencyOf, insert_root, entryAt_insertNode_same]
  cases entryAt s.root (toLowerCase host word).data <;> rfl

theorem search_eq_frequencyOf (s : AutocompleteChatbotUI) (word : String) :
    s.search host word = (frequencyOf host s word).isSome := by
  rw [search_eq, frequencyOf]
  cases entryAt s.root (toLowerCase host word).data <;> rfl

/-- C8: for every host, every store and every input that is not blank after trimming and whose
trimmed lowercase form is none of `quit`, `exit`, `stats`, `help`, `processInput(input)` leaves
the store that `insert(input, 1)` leaves, whether or not the word was stored: afterwards
`search(input)` is true, the frequency of the word is 1 when `search(input)` was false and one
more than before when it was true, and `totalInsertions` has grown by exactly 1. -/
theorem processInput_learns (host : Host) (s : AutocompleteChatbotUI) (input : String)
    (h1 : trim input ≠ "")
    (h2 : toLowerCase host (trim input) ∉ ["quit", "exit", "stats", "help"]) :
    s.processInput host input = s.insert host input 1 ∧
    (s.processInput host input).search host input = true ∧
    (s.search host input = false →
      frequencyOf host (s.processInput host input) input = some 1) ∧
    (s.search host input = true → ∃ k : Int, frequencyOf host s input = some k ∧
      frequencyOf host (s.processInput host input) input = some (k + 1)) ∧
    (s.processInput host input).totalInsertions = s.totalInsertions + 1 := by
  rw [processInput_eq_insert s input h1 h2]
  refine ⟨rfl, ?_, ?_, ?_, rfl⟩
  · rw [search_eq_frequencyOf, frequencyOf_insert]
    rfl
  · intro h
    rw [search_eq_frequencyOf] at h
    rw [frequencyOf_insert]
    cases hf : frequencyOf host s input with
    | none => rfl
    | some k => simp [hf] at h
  · intro h
    rw [search_eq_frequencyOf] at h
    rw [frequencyOf_insert]
    cases hf : frequencyOf host s input with
    | none => simp [hf] at h
    | some k => exact ⟨k, rfl, rfl⟩

set_option maxRecDepth 100000 in
/-- An instance of C8: in the sample host the input `" Cat"` is not blank and is no command. -/
theorem processInput_learns_witness :
    (trim " Cat" ≠ "" ∧
      toLowerCase sampleHost (trim " Cat") ∉ ["quit", "exit", "stats", "help"]) ∧
    ((build sampleHost [("cat", 3)]).processInput sampleHost " Cat" =
      (build sampleHost [("cat", 3)]).insert sampleHost " Cat" 1 ∧
    ((build sampleHost [("cat", 3)]).processInput sampleHost " Cat").search sampleHost " Cat" =
      true ∧
    ((build sampleHost [("cat", 3)]).search sampleHost " Cat" = false →
      frequencyOf sampleHost ((build sampleHost [("cat", 3)]).processInput sampleHost " Cat")
        " Cat" = some 1) ∧
    ((build sampleHost [("cat", 3)]).search sampleHost " Cat" = true → ∃ k : Int,
      frequencyOf sampleHost (build sampleHost [("cat", 3)]) " Cat" = some k ∧
      frequencyOf sampleHost ((build sampleHost [("cat", 3)]).processInput sampleHost " Cat")
        " Cat" = some (k + 1)) ∧
    ((build sampleHost [("cat", 3)]).processInput sampleHost " Cat").totalInsertions =
      (build sampleHost [("cat", 3)]).totalInsertions + 1) :=
  ⟨⟨by decide, by decide⟩,
    processInput_learns sampleHost (build sampleHost [("cat", 3)]) " Cat" (by decide)
      (by decide)⟩

set_option maxRecDepth 100000 in
theorem sampleHost_seed_words : ∀ p ∈ defaultWords, toLowerCase sampleHost p.1 = p.1 := by
  decide

set_option maxRecDepth 100000 in
theorem sampleHost_bootstrap :
    (AutocompleteChatbotUI.empty.initializeDefaultWords sampleHost).totalWords = 43 ∧
    (AutocompleteChatbotUI.empty.initializeDefaultWords sampleHost).totalInsertions = 319 ∧
    ((defaultWords.map Prod.fst).dedup).length = 43 ∧
    (defaultWords.map Prod.snd).sum = 319 := by
  decide

/-- C9: for every host that leaves the seed words, all lowercase, as they are, after the
bootstrap, `initializeDefaultWords` on the empty store, `totalWords` is 43, the number of
distinct seed words, and `totalInsertions` is 319, the sum of the seed frequencies. -/
theorem bootstrap_totals (host : Host)
    (hseed : ∀ p ∈ defaultWords, toLowerCase host p.1 = p.1) :
    (AutocompleteChatbotUI.empty.initializeDefaultWords host).totalWords = 43 ∧
    (AutocompleteChatbotUI.empty.initializeDefaultWords host).totalInsertions = 319 ∧
    ((defaultWords.map Prod.fst).dedup).length = 43 ∧
    (defaultWords.map Prod.snd).sum = 319 := by
  have h : AutocompleteChatbotUI.empty.initializeDefaultWords host =
      AutocompleteChatbotUI.empty.initializeDefaultWords sampleHost :=
    @build_congr host sampleHost defaultWords
      (fun p hp => (hseed p hp).trans (sampleHost_seed_words p hp).symm)
  rw [h]
  exact sampleHost_bootstrap

set_option maxRecDepth 100000 in
/-- An instance of C9: the sample host leaves the seed words as they are. -/
theorem bootstrap_totals_witness :
    (∀ p ∈ defaultWords, toLowerCase sampleHost p.1 = p.1) ∧
    (AutocompleteChatbotUI.empty.initializeDefaultWords sampleHost).totalWords = 43 ∧
    (AutocompleteChatbotUI.empty.initializeDefaultWords sampleHost).totalInsertions = 319 :=
  have h := bootstrap_totals sampleHost (by decide)
  ⟨by decide, h.1, h.2.1⟩

/-- C10: for every host, `totalWords` is the number of nodes whose `isEndOfWord` flag is true:
this holds of the empty store, `insert` preserves it for any word and any frequency, and so it
holds of every store built from the empty store by `insert` calls. -/
theorem totalWords_counts_terminal_nodes :
    AutocompleteChatbotUI.empty.totalWords = countTerminal AutocompleteChatbotUI.empty.root ∧
    (∀ (host : Host) (s : AutocompleteChatbotUI) (w : String) (f : Int),
      s.totalWords = countTerminal s.root →
      (s.insert host w f).totalWords = countTerminal (s.insert host w f).root) ∧
    (∀ (host : Host) (ops : List (String × Int)),
      (build host ops).totalWords = countTerminal (build host ops).root) :=
  ⟨rfl, fun _ => insert_countTerminal, fun _ => totalWords_build⟩
